import Mathlib

/-!
Verification development for the `antsibull-rs` markup parser and renderers.

The Rust sources are shallowly embedded: input strings are `List Char`
(the code scans UTF-8 bytes; on the ASCII inputs all claims exercise, byte
positions and character positions agree, and the embedding notes the few
places where the byte view matters), cursor positions are `Nat` indices,
fallible steps return `Except`, and the lazily-compiled regular expressions
of `src/markup/parse.rs` are replaced by the deterministic scanners they
denote (each regex there is a finite alternation or a character-class
scan with a unique match at any position, so the leftmost-first semantics
of the `regex` crate is reproduced exactly by the scanners below).
Loops whose Rust termination argument is "the cursor strictly advances"
are given an explicit fuel parameter; every public entry point passes
`input.length + 1`, which the lemmas show is always sufficient.
-/

set_option maxRecDepth 4096

deriving instance DecidableEq for Except

namespace Antsibull

/-! ## Basic string helpers -/

/-- Contiguous slice `input[s..e]` of a character list (half-open). -/
def slice (l : List Char) (s e : Nat) : List Char :=
  (l.drop s).take (e - s)

/-- Index of the first occurrence of `c`, mirroring `str::find` on a single
character pattern. -/
def idxOf (c : Char) : List Char → Option Nat
  | [] => none
  | d :: rest => if d = c then some 0 else (idxOf c rest).map (· + 1)

/-- Rust `str::split_once(c)`: split at the first occurrence of `c`. -/
def splitOnce (c : Char) (l : List Char) : Option (List Char × List Char) :=
  match idxOf c l with
  | none => none
  | some i => some (l.take i, l.drop (i + 1))

/-- Rust `str::split(".")`: split on every dot, keeping empty pieces; the
result is never the empty list. -/
def splitDot : List Char → List (List Char)
  | [] => [[]]
  | c :: rest =>
    if c = '.' then [] :: splitDot rest
    else
      match splitDot rest with
      | [] => [[c]]
      | p :: ps => (c :: p) :: ps

/-- ASCII word character, the `\b` boundary class of the `regex` crate
restricted to ASCII (all inputs the claims exercise are ASCII; non-ASCII
word characters are not modelled). -/
def isWordChar (c : Char) : Bool :=
  ('a' ≤ c && c ≤ 'z') || ('A' ≤ c && c ≤ 'Z') || ('0' ≤ c && c ≤ '9') || c = '_'

/-- Decimal rendering of a number, as Rust `format!("{}", n)`. -/
def natRepr (n : Nat) : List Char :=
  (Nat.repr n).toList

/-- Rust `char` `escape_debug` as used by `format!("{:?}", s)` on the strings
the parser embeds in diagnostics. Exact on ASCII; printable non-ASCII
characters, which Rust would leave unescaped, are rendered in `\u` form
(no diagnostic any claim touches contains one). -/
def rustCharEscapeDebug (c : Char) : List Char :=
  if c = '\\' then ['\\', '\\']
  else if c = '"' then ['\\', '"']
  else if c = '\'' then ['\\', '\'']
  else if c = '\n' then ['\\', 'n']
  else if c = '\t' then ['\\', 't']
  else if c = '\r' then ['\\', 'r']
  else if 0x20 ≤ c.toNat && c.toNat < 0x7f then [c]
  else ['\\', 'u', '\x7b'] ++ Nat.toDigits 16 c.toNat ++ ['\x7d']

/-- Rust `format!("{:?}", s)` for a string slice: quoted, characters
escaped via `escape_debug`. -/
def rustDebugStr (s : List Char) : List Char :=
  '"' :: (s.flatMap rustCharEscapeDebug) ++ ['"']

/-! ## DOM (`src/markup/dom.rs`) -/

/-- Identifies a plugin by FQCN and plugin type (`dom::PluginIdentifier`).
The `Rc` sharing of the Rust code is immaterial to values and is dropped. -/
structure PluginIdentifier where
  fqcn : List Char
  ptype : List Char
deriving DecidableEq, Repr

/-- A markup element (`dom::Part`). Borrowed `&str` payloads become plain
character lists. -/
inductive Part where
  | text (t : List Char)
  | italic (t : List Char)
  | bold (t : List Char)
  | code (t : List Char)
  | module (fqcn : List Char)
  | plugin (p : PluginIdentifier)
  | url (u : List Char)
  | link (t : List Char) (u : List Char)
  | rstRef (t : List Char) (r : List Char)
  | optionName (plugin : Option PluginIdentifier) (entrypoint : Option (List Char))
      (link : List (List Char)) (name : List Char) (value : Option (List Char))
  | optionValue (value : List Char)
  | envVariable (name : List Char)
  | returnValue (plugin : Option PluginIdentifier) (entrypoint : Option (List Char))
      (link : List (List Char)) (name : List Char) (value : Option (List Char))
  | horizontalLine
  | error (message : List Char)
deriving DecidableEq, Repr

/-- Whether a part is an inline `Error` part. -/
def isErrorPart : Part → Bool
  | .error _ => true
  | _ => false

/-- A part together with the exact input substring that produced it
(`dom::PartWithSource`). -/
structure PartWithSource where
  part : Part
  source : List Char
deriving DecidableEq, Repr

/-- The parsing context (`parse::Context`). -/
structure Context where
  current_plugin : Option PluginIdentifier
  role_entrypoint : Option (List Char)

/-- Parsing options (`parse::ParseOptions`). -/
structure ParseOptions where
  only_classic_markup : Bool
  strict : Bool
  helpful_errors : Bool
  whereOpt : Option (List Char)

/-- `ParseOptions::default()`: everything off except helpful errors. -/
def ParseOptions.default : ParseOptions :=
  { only_classic_markup := false, strict := false, helpful_errors := true, whereOpt := none }

/-! ## Command table (`parse.rs`, `Command` and `ALL_COMMANDS`) -/

/-- A markup command (`parse::Command`). -/
structure Command where
  command : String
  cmdMatch : List Char
  parameters : Nat
  escapedArguments : Bool
  oldMarkup : Bool
deriving DecidableEq, Repr

def Command.newClassic (c : String) (m : List Char) (p : Nat) : Command :=
  ⟨c, m, p, false, true⟩

def Command.newModern (c : String) (m : List Char) (p : Nat) : Command :=
  ⟨c, m, p, true, false⟩

def ITALICS : Command := Command.newClassic "I" ['I', '('] 1
def BOLD : Command := Command.newClassic "B" ['B', '('] 1
def MODULE : Command := Command.newClassic "M" ['M', '('] 1
def URLCMD : Command := Command.newClassic "U" ['U', '('] 1
def LINK : Command := Command.newClassic "L" ['L', '('] 2
def RSTREF : Command := Command.newClassic "R" ['R', '('] 2
def CODE : Command := Command.newClassic "C" ['C', '('] 1
def HORIZONTAL_LINE : Command := Command.newClassic "HORIZONTALLINE" "HORIZONTALLINE".toList 0
def PLUGIN : Command := Command.newModern "P" ['P', '('] 1
def ENVVAR : Command := Command.newModern "E" ['E', '('] 1
def OPTION_VALUE : Command := Command.newModern "V" ['V', '('] 1
def OPTION_NAME : Command := Command.newModern "O" ['O', '('] 1
def RETURN_VALUE : Command := Command.newModern "RV" ['R', 'V', '('] 1

def ALL_COMMANDS : List Command :=
  [ITALICS, BOLD, MODULE, URLCMD, LINK, RSTREF, CODE, HORIZONTAL_LINE,
   PLUGIN, ENVVAR, OPTION_VALUE, OPTION_NAME, RETURN_VALUE]

/-- The command set of the classic-only recognizer
(`CLASSIC_MARKUP_PARSER`). -/
def classicCommands : List Command :=
  ALL_COMMANDS.filter (fun c => c.oldMarkup)

/-- Tokenizer configuration: the data a `StringParser` carries besides the
input and the cursor. -/
structure PCfg where
  cmds : List Command
  strict : Bool
  helpful_errors : Bool
  whereOpt : Option (List Char)

/-- Build the configuration `create_parser` selects from the options. -/
def mkCfg (opts : ParseOptions) : PCfg :=
  { cmds := if opts.only_classic_markup then classicCommands else ALL_COMMANDS,
    strict := opts.strict,
    helpful_errors := opts.helpful_errors,
    whereOpt := opts.whereOpt }

/-! ## Command recognizer

The compiled alternation `(\bI\(|\bB\(|...|\bHORIZONTALLINE\b|...)` of
`Parser::new` is a word-boundary-anchored literal alternation; no two
branches can match at the same position (no branch is a prefix of
another), so its leftmost match is found by scanning positions left to
right and testing each branch. The `command_map` lookup in
`prepare_tokens` always succeeds, because every alternation branch is a
key of the map; the embedding therefore returns the command directly. -/

/-- Does command `c` match at position `i` (its literal, fenced by the word
boundaries `Parser::new` emits)? All command literals begin and end with
ASCII word characters, so `\b` holds exactly when the neighbouring input
character is absent or not a word character. -/
def cmdMatchesAt (input : List Char) (i : Nat) (c : Command) : Bool :=
  c.cmdMatch.isPrefixOf (input.drop i)
  && (match i with
      | 0 => true
      | j + 1 =>
        match input[j]? with
        | some ch => !isWordChar ch
        | none => true)
  && (c.parameters != 0
      || (match input[i + c.cmdMatch.length]? with
          | some ch => !isWordChar ch
          | none => true))

/-- First command of `cmds` matching at position `i` (alternation order). -/
def cmdAt (cmds : List Command) (input : List Char) (i : Nat) : Option Command :=
  cmds.find? (fun c => cmdMatchesAt input i c)

/-- Scan the suffix (whose first element sits at absolute position `i`) for
the leftmost command match: `self.parser.regex.find_at`. -/
def findCommandAux (cmds : List Command) (input : List Char) : List Char → Nat → Option (Nat × Command)
  | [], _ => none
  | _ :: rest, i =>
    match cmdAt cmds input i with
    | some c => some (i, c)
    | none => findCommandAux cmds input rest (i + 1)

def findCommand (cmds : List Command) (input : List Char) (pos : Nat) : Option (Nat × Command) :=
  findCommandAux cmds input (input.drop pos) pos

/-! ## Escape-mode matchers (`escape_or_comma` = `\\.| *, *`,
`escape_or_closing` = `\\.|\)`) -/

/-- Length matched by `\\.` at the head of a suffix (`.` of the `regex`
crate does not match a newline). -/
def matchEscapeLen : List Char → Option Nat
  | '\\' :: c :: _ => if c = '\n' then none else some 2
  | _ => none

/-- Length matched by `\)` at the head of a suffix. -/
def matchClosingLen : List Char → Option Nat
  | ')' :: _ => some 1
  | _ => none

/-- Length of the run of spaces at the head of a suffix. -/
def countSpaces : List Char → Nat
  | ' ' :: rest => countSpaces rest + 1
  | _ => 0

/-- Length matched by ` *, *` at the head of a suffix: greedy spaces, a
comma, greedy spaces. -/
def matchCommaWsLen (l : List Char) : Option Nat :=
  match l.drop (countSpaces l) with
  | ',' :: rest2 => some (countSpaces l + 1 + countSpaces rest2)
  | _ => none

/-- The two compiled argument regexes of `Parser::new`. -/
inductive EscMatcher
  | escOrComma
  | escOrClosing
deriving DecidableEq

/-- Match length of an argument regex at the head of a suffix; the `\\.`
branch is preferred, as leftmost-first alternation does. -/
def escMatchLen : EscMatcher → List Char → Option Nat
  | .escOrComma, l =>
    match matchEscapeLen l with
    | some len => some len
    | none => matchCommaWsLen l
  | .escOrClosing, l =>
    match matchEscapeLen l with
    | some len => some len
    | none => matchClosingLen l

/-- Scan a suffix (first element at absolute position `i`) for the leftmost
match of an argument regex, returning absolute start and end. -/
def findEscAux (m : EscMatcher) : List Char → Nat → Option (Nat × Nat)
  | [], _ => none
  | c :: rest, i =>
    match escMatchLen m (c :: rest) with
    | some len => some (i, i + len)
    | none => findEscAux m rest (i + 1)

/-- `regex.find_at(self.input, self.position)` for an argument regex. -/
def findEsc (m : EscMatcher) (input : List Char) (pos : Nat) : Option (Nat × Nat) :=
  findEscAux m (input.drop pos) pos

/-- `find_at(slice, pat, at)` of `parse.rs` for a single-character pattern. -/
def findChar (c : Char) (input : List Char) (pos : Nat) : Option Nat :=
  (idxOf c (input.drop pos)).map (· + pos)

/-! ## Unescaped argument collector (`StringParser::strip`,
`StringParser::parse_unescaped_call`) -/

/-- The left loop of `StringParser::strip`: advance `l` over spaces while
`l < r`. Fuel `r - l` bounds the iterations exactly. -/
def stripLeftLoop (input : List Char) : Nat → Nat → Nat → Nat
  | 0, l, _ => l
  | fuel + 1, l, r =>
    if l < r && input[l]? = some ' ' then stripLeftLoop input fuel (l + 1) r else l

/-- The right loop of `StringParser::strip`, exactly as written: it tests
the byte at index `r` itself — which at every call site is the separator
(`,`), never a space — so it never decrements. -/
def stripRightLoop (input : List Char) : Nat → Nat → Nat → Nat
  | 0, _, r => r
  | fuel + 1, l, r =>
    if l < r && input[r]? = some ' ' then stripRightLoop input fuel l (r - 1) else r

/-- `StringParser::strip`. -/
def strip (input : List Char) (left right : Nat) (strip_left strip_right : Bool) : Nat × Nat :=
  let l := if strip_left then stripLeftLoop input (right - left) left right else left
  let r := if strip_right then stripRightLoop input (right - l) l right else right
  (l, r)

/-- The comma/closing loop of `StringParser::parse_unescaped_call`,
structurally recursive on the remaining comma count. Returns the collected
arguments (or the error) and the new cursor. -/
def unescapedArgsLoop (input : List Char) (count : Nat) :
    Nat → Nat → Bool → List (List Char) → Except (List Char) (List (List Char)) × Nat
  | pos, 0, first, acc =>
    match findChar ')' input pos with
    | none => (.error "Cannot find closing \")\" after last parameter".toList, input.length)
    | some idx =>
      let (s, e) := strip input pos idx (!first) false
      (.ok (acc ++ [slice input s e]), idx + 1)
  | pos, k + 1, first, acc =>
    match findChar ',' input pos with
    | none =>
      (.error ("Cannot find comma separating parameter ".toList ++ natRepr (count - (k + 1))
        ++ " from the next one".toList), input.length)
    | some idx =>
      let (s, e) := strip input pos idx (!first) true
      unescapedArgsLoop input count (idx + 1) k false (acc ++ [slice input s e])

/-- `StringParser::parse_unescaped_call`. -/
def parse_unescaped_call (input : List Char) (pos : Nat) (count : Nat) :
    Except (List Char) (List (List Char)) × Nat :=
  match count with
  | 0 => (.ok [], pos)
  | n + 1 => unescapedArgsLoop input (n + 1) pos n true []

/-! ## Escaped argument collector (`StringParser::_process_match`,
`StringParser::parse_escaped_call`) -/

/-- One argument of an escaped-mode call: the inner `loop` of
`parse_escaped_call` around `_process_match`. `missing` is the error for a
failed regex search. Fuel bounds the iterations; callers pass
`input.length + 1`, which always suffices because the cursor strictly
advances. -/
def collectArg (strict : Bool) (m : EscMatcher) (input : List Char) (missing : List Char) :
    Nat → Nat → List Char → Except (List Char) (List Char) × Nat
  | 0, pos, _ => (.error missing, pos)
  | fuel + 1, pos, buf =>
    match findEsc m input pos with
    | none => (.error missing, input.length)
    | some (ms, me) =>
      let buf' := if ms > pos then buf ++ slice input pos ms else buf
      if input[ms]? ≠ some '\\' then (.ok buf', me)
      else
        let escaped := slice input (ms + 1) me
        if strict && escaped ≠ [')'] && escaped ≠ ['\\'] then
          (.error ("Unnecessarily escaped ".toList ++ rustDebugStr escaped), me)
        else collectArg strict m input missing fuel me (buf' ++ escaped)

/-- The outer loop of `parse_escaped_call`: `commasLeft` non-final
arguments (terminated by ` *, *`), then the final one (terminated by
`\)`). `count` is the declared arity, used in the error message. -/
def escapedArgsLoop (strict : Bool) (input : List Char) (count : Nat) :
    Nat → Nat → List (List Char) → Except (List Char) (List (List Char)) × Nat
  | pos, 0, acc =>
    match collectArg strict .escOrClosing input
        "Cannot find closing \")\" after last parameter".toList (input.length + 1) pos [] with
    | (.ok arg, pos') => (.ok (acc ++ [arg]), pos')
    | (.error e, pos') => (.error e, pos')
  | pos, k + 1, acc =>
    match collectArg strict .escOrComma input
        ("Cannot find comma separating parameter ".toList ++ natRepr (count - (k + 1))
          ++ " from the next one".toList) (input.length + 1) pos [] with
    | (.ok arg, pos') => escapedArgsLoop strict input count pos' k (acc ++ [arg])
    | (.error e, pos') => (.error e, pos')

/-- `StringParser::parse_escaped_call`. -/
def parse_escaped_call (strict : Bool) (input : List Char) (pos : Nat) (count : Nat) :
    Except (List Char) (List (List Char)) × Nat :=
  match count with
  | 0 => (.ok [], pos)
  | n + 1 => escapedArgsLoop strict input (n + 1) pos n []

/-! ## Error diagnostics (`StringParser::_compose_parsing_error`) -/

/-- `"While parsing {source} at index {start+1}{where}: {detail}"`. -/
def compose_parsing_error (cfg : PCfg) (input : List Char) (cmd : Command)
    (s e : Nat) (err : List Char) : List Char :=
  let errorSource :=
    if cfg.helpful_errors then '"' :: slice input s e ++ ['"']
    else cmd.command.toList ++ (if cmd.parameters > 0 then ['(', ')'] else [])
  "While parsing ".toList ++ errorSource ++ " at index ".toList ++ natRepr (s + 1)
    ++ (cfg.whereOpt.getD []) ++ ": ".toList ++ err

/-! ## Tokenizer (`Token`, `StringParser::prepare_tokens`, `next`) -/

/-- A token with its span; the `End` token is represented by the end of the
token list. -/
inductive Token where
  | text (s e : Nat)
  | uCmd (cmd : Command) (params : List (List Char)) (s e : Nat)
  | eCmd (cmd : Command) (params : List (List Char)) (s e : Nat)
  | err (message : List Char) (s e : Nat)
deriving DecidableEq, Repr

def Token.tokStart : Token → Nat
  | .text s _ => s
  | .uCmd _ _ s _ => s
  | .eCmd _ _ s _ => s
  | .err _ s _ => s

def Token.tokEnd : Token → Nat
  | .text _ e => e
  | .uCmd _ _ _ e => e
  | .eCmd _ _ _ e => e
  | .err _ _ e => e

/-- Run one recognized command: the argument-collection half of
`prepare_tokens`. `ms`/`me` delimit the matched command literal. Returns
the produced token and the new cursor. -/
def runCommand (cfg : PCfg) (input : List Char) (cmd : Command) (ms me : Nat) : Token × Nat :=
  if cmd.escapedArguments then
    match parse_escaped_call cfg.strict input me cmd.parameters with
    | (.ok params, pos') => (.eCmd cmd params ms pos', pos')
    | (.error msg, pos') => (.err (compose_parsing_error cfg input cmd ms pos' msg) ms pos', pos')
  else
    match parse_unescaped_call input me cmd.parameters with
    | (.ok params, pos') => (.uCmd cmd params ms pos', pos')
    | (.error msg, pos') => (.err (compose_parsing_error cfg input cmd ms pos' msg) ms pos', pos')

/-- The tokenizer loop: repeated `prepare_tokens` steps until the cursor
reaches the end. Fuel bounds the iterations; the cursor strictly advances,
so `input.length + 1` always suffices. -/
def tokenizeFrom (cfg : PCfg) (input : List Char) : Nat → Nat → List Token
  | 0, _ => []
  | fuel + 1, pos =>
    if input.length ≤ pos then []
    else
      match findCommand cfg.cmds input pos with
      | none => [.text pos input.length]
      | some (ms, cmd) =>
        let pre : List Token := if pos < ms then [.text pos ms] else []
        let me := ms + cmd.cmdMatch.length
        let (tok, pos') := runCommand cfg input cmd ms me
        pre ++ tok :: tokenizeFrom cfg input fuel pos'

/-- All tokens of an input. -/
def tokenize (cfg : PCfg) (input : List Char) : List Token :=
  tokenizeFrom cfg input (input.length + 1) 0

/-! ## Option-like reference sub-parser (`_parse_option_like`) -/

/-- Character class `[a-z0-9_]` of the FQCN regex. -/
def isFqcnWord (c : Char) : Bool :=
  ('a' ≤ c && c ≤ 'z') || ('0' ≤ c && c ≤ '9') || c = '_'

/-- `Parser::is_fqcn`: full match of
`^[a-z0-9_]+\.[a-z0-9_]+(?:\.[a-z0-9_]+)+$`, i.e. at least three
dot-separated nonempty `[a-z0-9_]` groups. -/
def is_fqcn (s : List Char) : Bool :=
  let pieces := splitDot s
  decide (3 ≤ pieces.length) && pieces.all (fun p => !p.isEmpty && p.all isFqcnWord)

/-- `Parser::is_plugin_type`: full match of `^[a-z_]+$`. -/
def is_plugin_type (s : List Char) : Bool :=
  !s.isEmpty && s.all (fun c => ('a' ≤ c && c ≤ 'z') || c = '_')

/-- The scan of `array_stub_re.replace_all` (`\[([^\]]*)\]`, empty
replacement): drop every bracketed stub up to the first `]`; a `[` with no
later `]` cannot match and stays. Each step consumes at least one
character, so fuel `s.length` is exact. -/
def removeArrayStubsAux : Nat → List Char → List Char
  | 0, s => s
  | _ + 1, [] => []
  | fuel + 1, c :: rest =>
    if c = '[' then
      match idxOf ']' rest with
      | some j => removeArrayStubsAux fuel (rest.drop (j + 1))
      | none => c :: removeArrayStubsAux fuel rest
    else c :: removeArrayStubsAux fuel rest

def removeArrayStubs (s : List Char) : List Char :=
  removeArrayStubsAux s.length s

/-- The anchored prefix regex `^([^.]+\.[^.]+\.[^#]+)#([^:]+):(.*)$` of
`_parse_option_like`, as its deterministic reading: the first two dots
delimit the first two nonempty groups, the first `#` after the second dot
ends the nonempty `[^#]+`, the first `:` after that `#` ends the nonempty
plugin type, and `(.*)$` takes the rest, which must contain no newline.
Returns (capture 1, capture 2, capture 3). -/
def fqcnTypePrefixCaptures (text : List Char) : Option (List Char × List Char × List Char) :=
  match idxOf '.' text with
  | none => none
  | some d1 =>
    if d1 = 0 then none
    else
      match idxOf '.' (text.drop (d1 + 1)) with
      | none => none
      | some r2 =>
        if r2 = 0 then none
        else
          let d2 := d1 + 1 + r2
          match idxOf '#' (text.drop (d2 + 1)) with
          | none => none
          | some r3 =>
            if r3 = 0 then none
            else
              let h := d2 + 1 + r3
              match idxOf ':' (text.drop (h + 1)) with
              | none => none
              | some r4 =>
                if r4 = 0 then none
                else
                  let c0 := h + 1 + r4
                  let cap3 := text.drop (c0 + 1)
                  if cap3.contains '\n' then none
                  else some (text.take h, slice text (h + 1) c0, cap3)

/-- The tuple `_parse_option_like` returns on success. -/
structure OptionLikeResult where
  plugin : Option PluginIdentifier
  entrypoint : Option (List Char)
  link : List (List Char)
  name : List Char
  value : Option (List Char)
deriving DecidableEq, Repr

/-- Final assembly of `_parse_option_like`'s `Ok` tuple: `link` is the
text with array stubs removed, split on dots. -/
def mkOptionLike (plugin : Option PluginIdentifier) (entrypoint : Option (List Char))
    (text : List Char) (value : Option (List Char)) : OptionLikeResult :=
  { plugin := plugin, entrypoint := entrypoint,
    link := splitDot (removeArrayStubs text), name := text, value := value }

/-- The role-entrypoint step of `_parse_option_like` (`if pi.r#type ==
"role"`, splitting an explicit `entrypoint:` off the text, requiring one
to exist). -/
def optionLikeRoleStep (plugin : Option PluginIdentifier) (entrypoint0 : Option (List Char))
    (text1 : List Char) : Except (List Char) (Option (List Char) × List Char) :=
  match plugin with
  | some pi =>
    if pi.ptype = "role".toList then
      match splitOnce ':' text1 with
      | some (a, b) => .ok (some a, b)
      | none =>
        if entrypoint0 = none then
          .error "Role reference is missing entrypoint".toList
        else .ok (entrypoint0, text1)
    else .ok (entrypoint0, text1)
  | none => .ok (entrypoint0, text1)

/-- The tail of `_parse_option_like` after the plugin qualifier has been
resolved: the role step, the `:`/`#` validity check, and the final `Ok`
assembly. -/
def optionLikeFinish (plugin : Option PluginIdentifier) (entrypoint0 : Option (List Char))
    (text1 : List Char) (value : Option (List Char)) : Except (List Char) OptionLikeResult :=
  match optionLikeRoleStep plugin entrypoint0 text1 with
  | .error e => .error e
  | .ok (entrypoint, text) =>
    if text.contains ':' || text.contains '#' then
      .error ("Invalid option/return value name ".toList ++ rustDebugStr text)
    else .ok (mkOptionLike plugin entrypoint text value)

/-- `_parse_option_like`: split off the `=value`, resolve the plugin
qualifier (explicit `fqcn#type:`, `ignore:`, or inherited from the
context), then finish. -/
def parse_option_like (input : List Char) (ctx : Context) :
    Except (List Char) OptionLikeResult :=
  let (text0, value) :=
    match splitOnce '=' input with
    | some (r, ov) => (r, some ov)
    | none => (input, none)
  match fqcnTypePrefixCaptures text0 with
  | some (fqcn, plugin_type, cap3) =>
    if !is_fqcn fqcn then
      .error ("Plugin name ".toList ++ rustDebugStr fqcn ++ " is not a FQCN".toList)
    else if !is_plugin_type plugin_type then
      .error ("Plugin type ".toList ++ rustDebugStr plugin_type ++ " is not valid".toList)
    else optionLikeFinish (some ⟨fqcn, plugin_type⟩) none cap3 value
  | none =>
    if "ignore:".toList.isPrefixOf text0 then
      optionLikeFinish none none (text0.drop "ignore:".toList.length) value
    else optionLikeFinish ctx.current_plugin ctx.role_entrypoint text0 value

/-! ## Token-to-part conversion (`to_part`, `ToPartError::to_part`) -/

/-- `to_part`, with conversion failures already composed into `Error`
parts the way `do_parse_with_source` does via `ToPartError::to_part`.
Parameter access `parameters[0]`/`parameters[1]`/`pop()` is total in the
Rust code because the collector returns exactly `cmd.parameters` items;
`getD`/`getLast?` mirror that. -/
def to_part (cfg : PCfg) (ctx : Context) (input : List Char) : Token → Part
  | .text s e => .text (slice input s e)
  | .err message _ _ => .error message
  | .uCmd cmd params s e =>
    let res : Except (List Char) Part :=
      match cmd.command with
      | "B" => .ok (.bold (params.getD 0 []))
      | "I" => .ok (.italic (params.getD 0 []))
      | "M" =>
        if !is_fqcn (params.getD 0 []) then
          .error ("Module name ".toList ++ rustDebugStr (params.getD 0 [])
            ++ " is not a FQCN".toList)
        else .ok (.module (params.getD 0 []))
      | "U" => .ok (.url (params.getD 0 []))
      | "L" => .ok (.link (params.getD 0 []) (params.getD 1 []))
      | "R" => .ok (.rstRef (params.getD 0 []) (params.getD 1 []))
      | "C" => .ok (.code (params.getD 0 []))
      | "HORIZONTALLINE" => .ok .horizontalLine
      | _ => .error ("Handling unescaped ".toList ++ rustDebugStr cmd.command.toList
          ++ " not yet implemented!".toList)
    match res with
    | .ok part => part
    | .error msg => .error (compose_parsing_error cfg input cmd s e msg)
  | .eCmd cmd params s e =>
    let value := (params.getLast?).getD []
    let res : Except (List Char) Part :=
      match cmd.command with
      | "P" =>
        match splitOnce '#' value with
        | some (fqcn, ptype) =>
          if !is_fqcn fqcn then
            .error ("Plugin name ".toList ++ rustDebugStr fqcn ++ " is not a FQCN".toList)
          else if !is_plugin_type ptype then
            .error ("Plugin name ".toList ++ rustDebugStr ptype ++ " is not a FQCN".toList)
          else .ok (.plugin ⟨fqcn, ptype⟩)
        | none => .error ("Parameter ".toList ++ rustDebugStr value
            ++ " is not of the form FQCN#type".toList)
      | "E" => .ok (.envVariable value)
      | "V" => .ok (.optionValue value)
      | "O" =>
        match parse_option_like value ctx with
        | .ok r => .ok (.optionName r.plugin r.entrypoint r.link r.name r.value)
        | .error e => .error e
      | "RV" =>
        match parse_option_like value ctx with
        | .ok r => .ok (.returnValue r.plugin r.entrypoint r.link r.name r.value)
        | .error e => .error e
      | _ => .error ("Handling escaped ".toList ++ rustDebugStr cmd.command.toList
          ++ " not yet implemented!".toList)
    match res with
    | .ok part => part
    | .error msg => .error (compose_parsing_error cfg input cmd s e msg)

/-! ## Parse entry points (`do_parse_with_source`, `parse`,
`parse_without_sources`) -/

/-- `parse`: every token becomes exactly one part, paired with its source
slice. -/
def parseWithSource (input : List Char) (ctx : Context) (opts : ParseOptions) :
    List PartWithSource :=
  let cfg := mkCfg opts
  (tokenize cfg input).map fun t =>
    { part := to_part cfg ctx input t, source := slice input t.tokStart t.tokEnd }

/-- `parse_without_sources`. -/
def parse_without_sources (input : List Char) (ctx : Context) (opts : ParseOptions) :
    List Part :=
  let cfg := mkCfg opts
  (tokenize cfg input).map fun t => to_part cfg ctx input t

/-! ## Escapers (`html_helper.rs`, `rst_helper.rs`, `md_helper.rs`)

The Rust escapers scan for maximal safe runs and keep a copy-on-write
buffer; byte for byte, their output is the concatenation of a per-character
rewriting, which is how they are embedded (the run structure only decides
whether the result is borrowed or owned, not its bytes). Bytes are
modelled as characters; a non-ASCII character stands for its (all-unsafe)
UTF-8 bytes, so the safe/unsafe classification below agrees with the byte
code on every input, and outputs agree on ASCII input. -/

/-- `is_url_safe` (the `encodeURI()` unreserved set). -/
def isUrlSafe (c : Char) : Bool :=
  ('A' ≤ c && c ≤ 'Z') || ('a' ≤ c && c ≤ 'z') || ('0' ≤ c && c ≤ '9')
  || c ∈ ['-', '_', '.', '!', '~', '*', '\'', '(', ')', ';', '/', '?', ':', '@',
          '&', '=', '+', '$', ',', '#']

/-- `is_html_safe`. -/
def isHtmlSafe (c : Char) : Bool :=
  !(c = '<' || c = '>' || c = '&')

/-- `hex_digit`: upper-case hex digit, `'\0'` outside `0..=15`. -/
def hexDigit (v : Nat) : Char :=
  if v ≤ 9 then Char.ofNat ('0'.toNat + v)
  else if v ≤ 15 then Char.ofNat ('A'.toNat + v - 10)
  else Char.ofNat 0

/-- `URLEscaper::escape`: percent-encode with upper-case hex. -/
def urlEscape (s : List Char) : List Char :=
  s.flatMap fun c =>
    if isUrlSafe c then [c] else ['%', hexDigit (c.toNat / 16), hexDigit (c.toNat % 16)]

/-- `URLEscaper::escape_with_html_escape`: as `escape`, but `&` becomes
`&amp;` and HTML-unsafe characters are also encoded. -/
def urlEscapeWithHtmlEscape (s : List Char) : List Char :=
  s.flatMap fun c =>
    if isUrlSafe c && isHtmlSafe c then [c]
    else if c = '&' then "&amp;".toList
    else ['%', hexDigit (c.toNat / 16), hexDigit (c.toNat % 16)]

/-- `HTMLEscaper::escape`. -/
def htmlEscape (s : List Char) : List Char :=
  s.flatMap fun c =>
    if isHtmlSafe c then [c]
    else if c = '<' then "&lt;".toList
    else if c = '>' then "&gt;".toList
    else "&amp;".toList

/-- The character class of `md_escape_re`:
``[!"#$%&'()*+,:;<=>?@[\]^_`{|}~.-]``. -/
def isMdEscapeChar (c : Char) : Bool :=
  c ∈ ['!', '"', '#', '$', '%', '&', '\'', '(', ')', '*', '+', ',', ':', ';',
       '<', '=', '>', '?', '@', '[', '\\', ']', '^', '_', '\x60', '\x7b', '|',
       '\x7d', '~', '.', '-']

/-- `MDEscaper::escape`: `replace_all` of the single-character class with
`\$1`, i.e. a backslash before every matched character. -/
def mdEscape (s : List Char) : List Char :=
  s.flatMap fun c => if isMdEscapeChar c then ['\\', c] else [c]

/-- `is_rst_safe`: everything except `\ < > _ *` and backtick. -/
def isRstSafe (c : Char) : Bool :=
  !(c = '\\' || c = '<' || c = '>' || c = '_' || c = '*' || c = '\x60')

/-- `RSTEscaper::escape`. On empty input, `must_not_be_empty` yields
`"\ "`. Otherwise the body backslash-escapes unsafe characters, and
`escape_ending_whitespace` adds `"\ "` before a leading and after a
trailing space (the Rust loop's `index < length` guard before the trailing
push is vacuous: a trailing space is a safe character, so the final safe
run is nonempty whenever the text ends with a space). -/
def rstEscape (text : List Char) (escape_ending_whitespace must_not_be_empty : Bool) :
    List Char :=
  if text.isEmpty then
    if must_not_be_empty then ['\\', ' '] else []
  else
    (if escape_ending_whitespace && text.head? = some ' ' then ['\\', ' '] else [])
    ++ (text.flatMap fun c => if isRstSafe c then [c] else ['\\', c])
    ++ (if escape_ending_whitespace && text.getLast? = some ' ' then ['\\', ' '] else [])

/-! ## Renderer framework (`format.rs`) -/

/-- `format::OptionLike`. -/
inductive OptionLike
  | opt
  | retval
deriving DecidableEq, Repr

/-! ## Antsibull HTML backend (`html_antsibull.rs`)

Each append method is embedded as the character sequence it pushes into
the appender. -/

/-- `AntsibullHTMLFormatter::append_tag`. -/
def htmlAppendTag (start : List Char) (text : List Char) (stop : List Char) : List Char :=
  start ++ htmlEscape text ++ stop

/-- `AntsibullHTMLFormatter::append_link`. -/
def htmlAppendLink (text url : List Char) : List Char :=
  "<a href='".toList ++ urlEscapeWithHtmlEscape url ++ "'>".toList
    ++ htmlEscape text ++ "</a>".toList

/-- `AntsibullHTMLFormatter::append_fqcn`. -/
def htmlAppendFqcn (fqcn : List Char) (url : Option (List Char)) : List Char :=
  match url with
  | some u =>
    "<a href='".toList ++ urlEscapeWithHtmlEscape u ++ "' class='module'>".toList
      ++ htmlEscape fqcn ++ "</a>".toList
  | none =>
    "<span class='module'>".toList ++ htmlEscape fqcn ++ "</span>".toList

/-- `AntsibullHTMLFormatter::append_option_like`. -/
def htmlAppendOptionLike (name : List Char) (value : Option (List Char))
    (what : OptionLike) (url : Option (List Char)) : List Char :=
  let is_option := what = OptionLike.opt
  let strong := is_option && value = none
  "<code class=\"".toList
  ++ (if strong then "ansible-option".toList
      else if is_option then "ansible-option-value".toList
      else "ansible-return-value".toList)
  ++ " literal notranslate\">".toList
  ++ (if strong then "<strong>".toList else [])
  ++ (match url with
      | some u => "<a class=\"reference internal\" href=\"".toList
          ++ urlEscapeWithHtmlEscape u
          ++ "\"><span class=\"std std-ref\"><span class=\"pre\">".toList
      | none => [])
  ++ htmlEscape name
  ++ (match value with
      | some v => '=' :: htmlEscape v
      | none => [])
  ++ (match url with
      | some _ => "</span></span></a>".toList
      | none => [])
  ++ (if strong then "</strong>".toList else [])
  ++ "</code>".toList

/-- `Formatter::append` of `AntsibullHTMLFormatter`. -/
def htmlAntsibullAppend (part : Part) (url : Option (List Char)) : List Char :=
  match part with
  | .text t => htmlEscape t
  | .bold t => htmlAppendTag "<b>".toList t "</b>".toList
  | .italic t => htmlAppendTag "<em>".toList t "</em>".toList
  | .code t => htmlAppendTag "<code class='docutils literal notranslate'>".toList t "</code>".toList
  | .horizontalLine => "<hr/>".toList
  | .optionValue v =>
    htmlAppendTag "<code class=\"ansible-value literal notranslate\">".toList v "</code>".toList
  | .envVariable n =>
    htmlAppendTag "<code class=\"xref std std-envvar literal notranslate\">".toList n
      "</code>".toList
  | .error message =>
    "<span class=\"error\">ERROR while parsing: ".toList ++ htmlEscape message
      ++ "</span>".toList
  | .rstRef t _ => htmlAppendTag "<span class='module'>".toList t "</span>".toList
  | .link t u => htmlAppendLink t u
  | .url u => htmlAppendLink u u
  | .module fqcn => htmlAppendFqcn fqcn url
  | .plugin p => htmlAppendFqcn p.fqcn url
  | .optionName _ _ _ name value => htmlAppendOptionLike name value OptionLike.opt url
  | .returnValue _ _ _ name value => htmlAppendOptionLike name value OptionLike.retval url

/-! ## Antsibull RST backend (`rst_antsibull.rs`) -/

/-- `AntsibullRSTFormatter::append_tag`. -/
def rstAppendTag (start : List Char) (text : List Char) (stop : List Char) : List Char :=
  start ++ rstEscape text true true ++ stop

/-- `AntsibullRSTFormatter::append_link`: empty text appends nothing;
empty url appends just the escaped text. -/
def rstAppendLink (text url : List Char) : List Char :=
  if text.length = 0 then []
  else if url.length = 0 then rstEscape text false false
  else
    "\\ \x60".toList ++ rstEscape text true false ++ " <".toList ++ urlEscape url
      ++ ">\x60__\\ ".toList

/-- `AntsibullRSTFormatter::append_fqcn`. -/
def rstAppendFqcn (fqcn : List Char) (ptype : List Char) : List Char :=
  "\\ :ref:\x60".toList ++ rstEscape fqcn false false ++ " <ansible_collections.".toList
    ++ fqcn ++ "_".toList ++ ptype ++ ">\x60\\ ".toList

/-- `AntsibullRSTFormatter::append_option_like`: build
`fqcn#type:entrypoint:name=value` and RST-escape the whole. -/
def rstAppendOptionLike (plugin : Option PluginIdentifier) (entrypoint : Option (List Char))
    (name : List Char) (value : Option (List Char)) (what : OptionLike) : List Char :=
  let builder :=
    (match plugin with
     | some p => p.fqcn ++ "#".toList ++ p.ptype ++ ":".toList
     | none => [])
    ++ (match entrypoint with
        | some ep => ep ++ ":".toList
        | none => [])
    ++ name
    ++ (match value with
        | some v => '=' :: v
        | none => [])
  "\\ :".toList
  ++ (match what with
      | .opt => "ansopt".toList
      | .retval => "ansretval".toList)
  ++ ":\x60".toList
  ++ rstEscape builder true true
  ++ "\x60\\ ".toList

/-- `Formatter::append` of `AntsibullRSTFormatter` (the `url` argument is
ignored by this backend). -/
def rstAntsibullAppend (part : Part) (_url : Option (List Char)) : List Char :=
  match part with
  | .text t => rstEscape t false false
  | .bold t => rstAppendTag "\\ :strong:\x60".toList t "\x60\\ ".toList
  | .italic t => rstAppendTag "\\ :emphasis:\x60".toList t "\x60\\ ".toList
  | .code t => rstAppendTag "\\ :literal:\x60".toList t "\x60\\ ".toList
  | .horizontalLine => "\n\n.. raw:: html\n\n  <hr>\n\n".toList
  | .optionValue v => rstAppendTag "\\ :ansval:\x60".toList v "\x60\\ ".toList
  | .envVariable n => rstAppendTag "\\ :envvar:\x60".toList n "\x60\\ ".toList
  | .error message =>
    "\\ :strong:\x60ERROR while parsing\x60\\ : ".toList ++ rstEscape message true true
      ++ "\\ ".toList
  | .rstRef t r =>
    "\\ :ref:\x60".toList ++ rstEscape t true true ++ " <".toList ++ r ++ ">\x60\\ ".toList
  | .link t u => rstAppendLink t u
  | .url u => rstAppendLink u u
  | .module fqcn => rstAppendFqcn fqcn "module".toList
  | .plugin p => rstAppendFqcn p.fqcn p.ptype
  | .optionName plugin entrypoint _ name value =>
    rstAppendOptionLike plugin entrypoint name value OptionLike.opt
  | .returnValue plugin entrypoint _ name value =>
    rstAppendOptionLike plugin entrypoint name value OptionLike.retval

/-! ## Verification predicates over token streams -/

/-- The spans of a token list tile `[pos, input.length)` contiguously and
in order. -/
def spansOk (input : List Char) : Nat → List Token → Prop
  | pos, [] => pos = input.length
  | pos, t :: rest =>
    t.tokStart = pos ∧ pos ≤ t.tokEnd ∧ t.tokEnd ≤ input.length ∧ spansOk input t.tokEnd rest

/-- Position `e` sits immediately after a `)`. -/
def endsAfterClosing (input : List Char) (e : Nat) : Prop :=
  ∃ k, e = k + 1 ∧ input[k]? = some ')'

/-- Position `e` sits immediately after a two-character backslash escape. -/
def endsAfterEscape (input : List Char) (e : Nat) : Prop :=
  ∃ k, e = k + 2 ∧ input[k]? = some '\\'

/-- Well-formedness of a produced token: command tokens carry a command of
the configured set with the matching quoting discipline, and, for positive
arity, end right after the consumed `)`; error tokens end at end-of-input,
right after a `)`, or (under `strict`) right after the offending escape. -/
def tokenWF (cfg : PCfg) (input : List Char) : Token → Prop
  | .text _ _ => True
  | .uCmd cmd _ _ e =>
    cmd ∈ cfg.cmds ∧ cmd.escapedArguments = false
      ∧ (1 ≤ cmd.parameters → endsAfterClosing input e)
  | .eCmd cmd _ _ e =>
    cmd ∈ cfg.cmds ∧ cmd.escapedArguments = true
      ∧ (1 ≤ cmd.parameters → endsAfterClosing input e)
  | .err _ _ e =>
    e = input.length ∨ endsAfterClosing input e
      ∨ (cfg.strict = true ∧ endsAfterEscape input e)

end Antsibull

namespace Antsibull

/-! # Theorems -/

/-- C1: the spec says the unescaped collector strips whitespace from the
end of each argument before a comma, so that `"L(foo , url)"` yields a
`Link` whose text is `"foo"`. The code does not: `StringParser::strip`
tests the byte at the exclusive right index `r` — at every call site the
separating `,` itself, never a space — so the `strip_right` branch never
strips and the flag is dead code, while the `strip_left` branch (which
correctly reads the byte at `l`) works. Parsing `"L(foo , url)"` yields a
`Link` part whose text is `"foo "`, keeping the space before the comma,
though the second argument's leading space is stripped as specified. -/
theorem C1_unescaped_strip_eval :
    parseWithSource "L(foo , url)".toList ⟨none, none⟩ ParseOptions.default =
      [{ part := Part.link "foo ".toList "url".toList, source := "L(foo , url)".toList }]
    ∧ "foo ".toList ≠ "foo".toList := by
  constructor
  · decide
  · decide

/-- C3 counterexample: the claim says the two `span` elements enclose the
anchor. In the emitted bytes the anchor opens before both spans and closes
after them: rendering an `OptionName` named `x` with URL `u` produces
`<code ...><strong><a ...><span class="std std-ref"><span class="pre">x
</span></span></a></strong></code>`, and the anchor-inside-spans sequence
`<span class="std std-ref"><span class="pre"><a` the claim implies occurs
nowhere in it. -/
theorem C3_option_like_nesting_counterexample :
    htmlAppendOptionLike ['x'] none OptionLike.opt (some ['u']) =
      ("<code class=\"ansible-option literal notranslate\"><strong>"
        ++ "<a class=\"reference internal\" href=\"u\"><span class=\"std std-ref\">"
        ++ "<span class=\"pre\">x</span></span></a></strong></code>").toList
    ∧ ¬ List.IsInfix "<span class=\"std std-ref\"><span class=\"pre\"><a".toList
        (htmlAppendOptionLike ['x'] none OptionLike.opt (some ['u'])) := by
  constructor
  · decide
  · decide

/-- C3 amended: when a URL is provided for an `OptionName` or `ReturnValue`
part, the antsibull HTML backend emits, inside the `<code>` element (and
inside `<strong>` for a bare option name), an `<a class="reference
internal">` anchor that encloses `<span class="std std-ref"><span
class="pre">` which in turn enclose the escaped name (and optional
`=value`): the spans are nested inside the anchor, not around it. -/
theorem C3_option_like_nesting (name : List Char) (value : Option (List Char))
    (what : OptionLike) (url : List Char) :
    htmlAppendOptionLike name value what (some url) =
      "<code class=\"".toList
      ++ (if what = OptionLike.opt && value = none then "ansible-option".toList
          else if what = OptionLike.opt then "ansible-option-value".toList
          else "ansible-return-value".toList)
      ++ " literal notranslate\">".toList
      ++ (if what = OptionLike.opt && value = none then "<strong>".toList else [])
      ++ ("<a class=\"reference internal\" href=\"".toList
          ++ urlEscapeWithHtmlEscape url
          ++ "\">".toList
          ++ ("<span class=\"std std-ref\"><span class=\"pre\">".toList
              ++ (htmlEscape name
                  ++ (match value with | some v => '=' :: htmlEscape v | none => []))
              ++ "</span></span>".toList)
          ++ "</a>".toList)
      ++ (if what = OptionLike.opt && value = none then "</strong>".toList else [])
      ++ "</code>".toList := by
  simp [htmlAppendOptionLike]

/-- C4 counterexample: with a URL, `append_fqcn` emits the `href` attribute
before the `class` attribute, so the output is
`<a href='u' class='module'>ns.col.mod</a>` and differs from the claimed
byte sequence `<a class='module' href='u'>ns.col.mod</a>`. -/
theorem C4_fqcn_rendering_counterexample :
    htmlAppendFqcn "ns.col.mod".toList (some ['u']) =
      "<a href='u' class='module'>ns.col.mod</a>".toList
    ∧ htmlAppendFqcn "ns.col.mod".toList (some ['u']) ≠
      "<a class='module' href='u'>ns.col.mod</a>".toList := by
  constructor
  · decide
  · decide

/-- C4 amended: a `Module` or `Plugin` part renders as
`<a href='URL' class='module'>FQCN</a>` (URL percent-encoded and
HTML-escaped, `href` before `class`) when the link provider supplies a
URL, and as `<span class='module'>FQCN</span>` when it does not. -/
theorem C4_fqcn_rendering (fqcn url : List Char) (p : PluginIdentifier) :
    htmlAntsibullAppend (.module fqcn) (some url) =
      "<a href='".toList ++ urlEscapeWithHtmlEscape url ++ "' class='module'>".toList
        ++ htmlEscape fqcn ++ "</a>".toList
    ∧ htmlAntsibullAppend (.module fqcn) none =
      "<span class='module'>".toList ++ htmlEscape fqcn ++ "</span>".toList
    ∧ htmlAntsibullAppend (.plugin p) (some url) =
      "<a href='".toList ++ urlEscapeWithHtmlEscape url ++ "' class='module'>".toList
        ++ htmlEscape p.fqcn ++ "</a>".toList
    ∧ htmlAntsibullAppend (.plugin p) none =
      "<span class='module'>".toList ++ htmlEscape p.fqcn ++ "</span>".toList :=
  ⟨rfl, rfl, rfl, rfl⟩

/-- Mapping each character to its own singleton leaves a list unchanged. -/
theorem flatMap_eq_self {f : Char → List Char} :
    ∀ {s : List Char}, (∀ c ∈ s, f c = [c]) → s.flatMap f = s := by
  intro s
  induction s with
  | nil => intro _; rfl
  | cons c rest ih =>
    intro h
    simp only [List.flatMap_cons, h c (by simp)]
    rw [ih fun d hd => h d (by simp [hd])]
    rfl

/-- C8 counterexample: the RST escaper does not return every escape-free
input unchanged. The empty string contains no character at all, yet with
`must_not_be_empty` it is rewritten to `"\ "`; and `" "` contains only the
escape-free space, yet with `escape_ending_whitespace` it is rewritten to
`"\  \ "`. -/
theorem C8_escaper_identity_counterexample :
    (rstEscape [] false true = ['\\', ' '] ∧ rstEscape [] false true ≠ [])
    ∧ (rstEscape [' '] true false = ['\\', ' ', ' ', '\\', ' ']
        ∧ rstEscape [' '] true false ≠ [' ']) := by
  decide

/-- C8 amended: every escaper returns its input unchanged byte-for-byte
whenever no character requires escape, where for the RST escaper a
leading or trailing space additionally requires escape when
`escape_ending_whitespace` is set, and the empty input is rewritten to
`"\ "` when `must_not_be_empty` is set. -/
theorem C8_escaper_identity :
    (∀ s : List Char, s.all isUrlSafe = true → urlEscape s = s)
    ∧ (∀ s : List Char, (s.all fun c => isUrlSafe c && isHtmlSafe c) = true →
        urlEscapeWithHtmlEscape s = s)
    ∧ (∀ s : List Char, s.all isHtmlSafe = true → htmlEscape s = s)
    ∧ (∀ s : List Char, (s.all fun c => !isMdEscapeChar c) = true → mdEscape s = s)
    ∧ (∀ (s : List Char) (eew mnbe : Bool), s.all isRstSafe = true →
        (eew = true → s.head? ≠ some ' ' ∧ s.getLast? ≠ some ' ') →
        (mnbe = true → s ≠ []) → rstEscape s eew mnbe = s) := by
  refine ⟨fun s h => ?_, fun s h => ?_, fun s h => ?_, fun s h => ?_,
    fun s eew mnbe hsafe hws hne => ?_⟩
  · exact flatMap_eq_self fun c hc => by
      simp [List.all_eq_true.mp h c hc]
  · exact flatMap_eq_self fun c hc => by
      simp [List.all_eq_true.mp h c hc]
  · exact flatMap_eq_self fun c hc => by
      simp [List.all_eq_true.mp h c hc]
  · exact flatMap_eq_self fun c hc => by
      have := List.all_eq_true.mp h c hc
      simp at this
      simp [this]
  · rcases s with _ | ⟨c, rest⟩
    · cases mnbe with
      | false => rfl
      | true => exact absurd rfl (hne rfl)
    · have hbody : (c :: rest).flatMap (fun d => if isRstSafe d then [d] else ['\\', d])
          = c :: rest :=
        flatMap_eq_self fun d hd => by simp [List.all_eq_true.mp hsafe d hd]
      cases eew with
      | false => simpa [rstEscape] using hbody
      | true =>
        obtain ⟨hh, hl⟩ := hws rfl
        simp only [List.head?] at hh
        simp at hh
        simp [rstEscape, hh, hl, hbody]

/-- C10: in the antsibull RST backend, a `Link` part with empty text
appends nothing; a `Link` part with nonempty text but empty url appends
only the RST-escaped text with no hyperlink markup; and a `URL` part with
empty url (rendered with the url as text) appends nothing. -/
theorem C10_rst_link_empty (text url : List Char) (u : Option (List Char)) :
    rstAntsibullAppend (.link [] url) u = []
    ∧ (text ≠ [] → rstAntsibullAppend (.link text []) u = rstEscape text false false)
    ∧ rstAntsibullAppend (.url []) u = [] := by
  refine ⟨rfl, fun ht => ?_, rfl⟩
  simp [rstAntsibullAppend, rstAppendLink, List.length_eq_zero, ht]

/-- C10 witness: concrete instances of the three statements. -/
theorem C10_rst_link_empty_witness :
    rstAntsibullAppend (.link [] ['u']) none = []
    ∧ rstAntsibullAppend (.link ['t'] []) none = rstEscape ['t'] false false
    ∧ rstAntsibullAppend (.url []) none = [] :=
  ⟨(C10_rst_link_empty ['t'] ['u'] none).1,
   (C10_rst_link_empty ['t'] [] none).2.1 (by decide),
   (C10_rst_link_empty ['t'] ['u'] none).2.2⟩

/-- C8 witness: the identity holds at concrete escape-free inputs. -/
theorem C8_escaper_identity_witness :
    urlEscape "https://ansible.com/x".toList = "https://ansible.com/x".toList
    ∧ urlEscapeWithHtmlEscape "https://a/b".toList = "https://a/b".toList
    ∧ htmlEscape "plain text".toList = "plain text".toList
    ∧ mdEscape "plain text".toList = "plain text".toList
    ∧ rstEscape "plain".toList true true = "plain".toList :=
  ⟨C8_escaper_identity.1 _ (by decide),
   C8_escaper_identity.2.1 _ (by decide),
   C8_escaper_identity.2.2.1 _ (by decide),
   C8_escaper_identity.2.2.2.1 _ (by decide),
   C8_escaper_identity.2.2.2.2 _ true true (by decide) (fun _ => by decide)
     (fun _ => by decide)⟩

/-- C5 counterexample: the claim quantifies over every character `c`, but
`\` followed by a newline is not an escape sequence (the `.` of the
compiled `\\.` does not match a newline), so in `V(a\<newline>b)` both the
backslash and the newline are kept literally: the parsed `OptionValue` is
`a\<newline>b`, not the claimed `a<newline>b`. -/
theorem C5_escaped_backslash_counterexample :
    parseWithSource "V(a\\\nb)".toList ⟨none, none⟩ ParseOptions.default =
      [{ part := Part.optionValue ['a', '\\', '\n', 'b'], source := "V(a\\\nb)".toList }]
    ∧ ['a', '\\', '\n', 'b'] ≠ ['a', '\n', 'b'] := by
  constructor
  · decide
  · decide

/-- C5 amended: in escaped-argument mode, for every character `c` other
than a newline, `\c` in an argument contributes the literal `c` to the
collected argument, and under `strict` collection fails with the
"Unnecessarily escaped" error exactly when `c` is neither `)` nor `\`;
a backslash followed by a newline is not an escape sequence and both
characters are kept literally (in which case `strict` does not object).
Stated on the escaped-call collector at the argument of `V(a\cb)`. -/
theorem C5_escaped_backslash (c : Char) :
    parse_escaped_call false ['V', '(', 'a', '\\', c, 'b', ')'] 2 1 =
      (.ok [if c = '\n' then ['a', '\\', '\n', 'b'] else ['a', c, 'b']], 7)
    ∧ parse_escaped_call true ['V', '(', 'a', '\\', c, 'b', ')'] 2 1 =
      (if c = '\n' then (.ok [['a', '\\', '\n', 'b']], 7)
       else if c = ')' ∨ c = '\\' then (.ok [['a', c, 'b']], 7)
       else (.error ("Unnecessarily escaped ".toList ++ rustDebugStr [c]), 5)) := by
  by_cases hn : c = '\n'
  · subst hn
    exact ⟨by decide, by decide⟩
  · by_cases hp : c = ')'
    · subst hp
      exact ⟨by decide, by decide⟩
    · by_cases hb : c = '\\'
      · subst hb
        exact ⟨by decide, by decide⟩
      · constructor
        · simp [parse_escaped_call, escapedArgsLoop, collectArg, findEsc, findEscAux,
            escMatchLen, matchEscapeLen, matchClosingLen, slice, hn, hp, hb]
        · simp [parse_escaped_call, escapedArgsLoop, collectArg, findEsc, findEscAux,
            escMatchLen, matchEscapeLen, matchClosingLen, slice, hn, hp, hb]

/-- C2 counterexample: under `strict`, the malformed escape `\b` in
`V(a\bc)x` fails the command, but the paragraph resumes immediately after
the escape sequence, not after the command's closing `)`: the Error part's
source is `V(a\b` and the rest of the paragraph is the Text part `c)x`,
whereas the claim predicts the sources `V(a\bc)` and `x`. -/
theorem C2_error_recovery_counterexample :
    ((parseWithSource "V(a\\bc)x".toList ⟨none, none⟩
        { only_classic_markup := false, strict := true, helpful_errors := true,
          whereOpt := none }).map (fun p => p.source) =
      ["V(a\\b".toList, "c)x".toList])
    ∧ isErrorPart (((parseWithSource "V(a\\bc)x".toList ⟨none, none⟩
        { only_classic_markup := false, strict := true, helpful_errors := true,
          whereOpt := none }).headD ⟨.horizontalLine, []⟩).part) = true
    ∧ ["V(a\\b".toList, "c)x".toList] ≠ ["V(a\\bc)".toList, "x".toList] := by
  refine ⟨by decide, by decide, by decide⟩

/-- A Rust `split` never yields an empty piece list. -/
theorem splitDot_ne_nil (s : List Char) : splitDot s ≠ [] := by
  induction s with
  | nil => simp [splitDot]
  | cons c rest ih =>
    simp only [splitDot]
    split
    · simp
    · split <;> simp

/-- C7: every successful run of the option-like sub-parser yields `link`
equal to `name` with every `[…]` array stub removed and the result split
on `.`, and `link` is never the empty list (a bare name yields a
one-element list, since splitting never returns no pieces). -/
theorem C7_option_link_invariant (input : List Char) (ctx : Context) (r : OptionLikeResult)
    (h : parse_option_like input ctx = .ok r) :
    r.link = splitDot (removeArrayStubs r.name) ∧ r.link ≠ [] := by
  have finish_case : ∀ (p : Option PluginIdentifier) (e0 : Option (List Char))
      (t : List Char) (v : Option (List Char)),
      optionLikeFinish p e0 t v = .ok r →
      r.link = splitDot (removeArrayStubs r.name) ∧ r.link ≠ [] := by
    intro p e0 t v hf
    unfold optionLikeFinish at hf
    repeat' split at hf
    all_goals first
      | (injection hf with hf
         subst hf
         exact ⟨rfl, splitDot_ne_nil _⟩)
      | simp at hf
  unfold parse_option_like at h
  repeat' split at h
  all_goals first
    | exact finish_case _ _ _ _ h
    | simp at h

/-- C7 witness: `O(foo[1].bar)` with an empty context. -/
theorem C7_option_link_invariant_witness :
    (mkOptionLike none none "foo[1].bar".toList none).link =
      splitDot (removeArrayStubs (mkOptionLike none none "foo[1].bar".toList none).name)
    ∧ (mkOptionLike none none "foo[1].bar".toList none).link ≠ [] :=
  C7_option_link_invariant "foo[1].bar".toList ⟨none, none⟩ _ (by decide)

/-- A character that occurs nowhere in a list is not found. -/
theorem idxOf_eq_none (c : Char) (l : List Char) (h : c ∉ l) : idxOf c l = none := by
  induction l with
  | nil => rfl
  | cons d rest ih =>
    simp only [List.mem_cons, not_or] at h
    simp [idxOf, Ne.symm h.1, ih h.2]

/-- A character that occurs nowhere in a list is not contained in it. -/
theorem contains_eq_false (c : Char) (l : List Char) (h : c ∉ l) : l.contains c = false := by
  simpa using h

/-- C9: an option-like reference with an explicit plugin qualifier of type
`role`, no further `:` in the remaining text and no inherited entrypoint
fails with the "Role reference is missing entrypoint" error, while the
same reference with an explicit `ep:` entrypoint succeeds, yielding
entrypoint `ep` and the bare name (stated for the argument of
`O(ns.col.r#role:name)` generically over the name). -/
theorem C9_role_entrypoint (name : List Char)
    (h1 : ':' ∉ name) (h2 : '#' ∉ name) (h3 : '=' ∉ name) (h4 : '\n' ∉ name) :
    parse_option_like ("ns.col.r#role:".toList ++ name) ⟨none, none⟩ =
      .error "Role reference is missing entrypoint".toList
    ∧ parse_option_like ("ns.col.r#role:ep:".toList ++ name) ⟨none, none⟩ =
      .ok (mkOptionLike (some ⟨"ns.col.r".toList, "role".toList⟩) (some "ep".toList)
        name none) := by
  have heq : idxOf '=' name = none := idxOf_eq_none _ _ h3
  have hcol : idxOf ':' name = none := idxOf_eq_none _ _ h1
  have hnl : name.contains '\n' = false := contains_eq_false _ _ h4
  have hc1 : name.contains ':' = false := contains_eq_false _ _ h1
  have hc2 : name.contains '#' = false := contains_eq_false _ _ h2
  constructor
  · simp +decide [parse_option_like, splitOnce, heq, fqcnTypePrefixCaptures, idxOf, slice,
      optionLikeFinish, optionLikeRoleStep, h1, h2, h3, h4, hcol, is_fqcn,
      is_plugin_type, splitDot, isFqcnWord, List.take, List.drop]
  · simp +decide [parse_option_like, splitOnce, heq, fqcnTypePrefixCaptures, idxOf, slice,
      optionLikeFinish, optionLikeRoleStep, h1, h2, h3, h4, hc1, hc2, is_fqcn,
      is_plugin_type, splitDot, isFqcnWord, List.take, List.drop]

/-- Spaces counted never exceed the length. -/
theorem countSpaces_le (l : List Char) : countSpaces l ≤ l.length := by
  induction l with
  | nil => simp [countSpaces]
  | cons c rest ih =>
    rw [countSpaces.eq_def]
    split
    · rename_i heq
      simp only [List.cons.injEq] at heq
      obtain ⟨h1, h2⟩ := heq
      subst h2
      simp only [List.length_cons]
      omega
    · simp

/-- A comma-with-whitespace match is nonempty and within the suffix. -/
theorem matchCommaWsLen_bounds (l : List Char) (len : Nat)
    (h : matchCommaWsLen l = some len) : 1 ≤ len ∧ len ≤ l.length := by
  unfold matchCommaWsLen at h
  split at h
  · rename_i rest2 heq
    injection h with h
    subst h
    have h1 : countSpaces l ≤ l.length := countSpaces_le l
    have h2 : countSpaces rest2 ≤ rest2.length := countSpaces_le rest2
    have h3 : (l.drop (countSpaces l)).length = l.length - countSpaces l :=
      List.length_drop ..
    rw [heq] at h3
    simp only [List.length_cons] at h3
    omega
  · exact absurd h (by simp)

/-- An escape match is exactly two characters after a backslash. -/
theorem matchEscapeLen_eq_two (l : List Char) (len : Nat)
    (h : matchEscapeLen l = some len) : len = 2 ∧ 2 ≤ l.length ∧ l.head? = some '\\' := by
  rw [matchEscapeLen.eq_def] at h
  split at h
  · rename_i c rest
    split at h
    · exact absurd h (by simp)
    · injection h with h
      subst h
      simp
  · exact absurd h (by simp)

/-- A closing match is one `)`. -/
theorem matchClosingLen_spec (l : List Char) (len : Nat)
    (h : matchClosingLen l = some len) : len = 1 ∧ l.head? = some ')' := by
  rw [matchClosingLen.eq_def] at h
  split at h
  · injection h with h
    subst h
    simp_all
  · exact absurd h (by simp)

/-- Any argument-regex match is nonempty and fits in the suffix. -/
theorem escMatchLen_bounds (m : EscMatcher) (l : List Char) (len : Nat)
    (h : escMatchLen m l = some len) : 1 ≤ len ∧ len ≤ l.length := by
  cases m with
  | escOrComma =>
    rw [escMatchLen] at h
    rcases he : matchEscapeLen l with _ | len2 <;> rw [he] at h
    · exact matchCommaWsLen_bounds l len h
    · obtain ⟨h2, hl, _⟩ := matchEscapeLen_eq_two l len2 he
      injection h with h
      omega
  | escOrClosing =>
    rw [escMatchLen] at h
    rcases he : matchEscapeLen l with _ | len2 <;> rw [he] at h
    · obtain ⟨h1, h2⟩ := matchClosingLen_spec l len h
      rcases l with _ | ⟨c, rest⟩
      · simp at h2
      · simp only [List.length_cons]
        omega
    · obtain ⟨h2, hl, _⟩ := matchEscapeLen_eq_two l len2 he
      injection h with h
      omega

/-- A match starting with a backslash is an escape match (two characters). -/
theorem escMatchLen_backslash (m : EscMatcher) (l : List Char) (len : Nat)
    (h : escMatchLen m l = some len) (hb : l.head? = some '\\') : len = 2 := by
  have hcomma : matchCommaWsLen l = none := by
    rcases l with _ | ⟨c, rest⟩
    · rfl
    · simp only [List.head?] at hb
      injection hb with hb
      subst hb
      rw [matchCommaWsLen]
      have hcs : countSpaces ('\\' :: rest) = 0 := by
        rw [countSpaces.eq_def]
        split
        · rename_i heq
          simp at heq
        · rfl
      simp only [hcs, List.drop_zero]
      rfl
  have hclose : matchClosingLen l = none := by
    rcases l with _ | ⟨c, rest⟩
    · rfl
    · simp only [List.head?] at hb
      injection hb with hb
      subst hb
      rfl
  cases m with
  | escOrComma =>
    rw [escMatchLen] at h
    rcases he : matchEscapeLen l with _ | len2 <;> rw [he] at h
    · rw [hcomma] at h
      exact absurd h (by simp)
    · injection h with h
      subst h
      exact (matchEscapeLen_eq_two l len2 he).1
  | escOrClosing =>
    rw [escMatchLen] at h
    rcases he : matchEscapeLen l with _ | len2 <;> rw [he] at h
    · rw [hclose] at h
      exact absurd h (by simp)
    · injection h with h
      subst h
      exact (matchEscapeLen_eq_two l len2 he).1

/-- A closing-regex match not starting with a backslash is the one-character
`)` match. -/
theorem escMatchLen_closing (l : List Char) (len : Nat)
    (h : escMatchLen .escOrClosing l = some len) (hb : l.head? ≠ some '\\') :
    len = 1 ∧ l.head? = some ')' := by
  rw [escMatchLen] at h
  rcases he : matchEscapeLen l with _ | len2 <;> rw [he] at h
  · exact matchClosingLen_spec l len h
  · exact absurd (matchEscapeLen_eq_two l len2 he).2.2 hb

/-- What a successful suffix scan returns: an offset into the scanned
suffix at which the matcher fires. -/
theorem findEscAux_spec (m : EscMatcher) :
    ∀ (l : List Char) (i ms me : Nat), findEscAux m l i = some (ms, me) →
      ∃ d, ms = i + d ∧ d < l.length ∧ escMatchLen m (l.drop d) = some (me - ms) ∧ ms < me := by
  intro l
  induction l with
  | nil => intro i ms me h; exact absurd h (by simp [findEscAux])
  | cons c rest ih =>
    intro i ms me h
    rw [findEscAux] at h
    rcases he : escMatchLen m (c :: rest) with _ | len <;> rw [he] at h
    · obtain ⟨d, hd1, hd2, hd3, hd4⟩ := ih (i + 1) ms me h
      refine ⟨d + 1, by omega, by simp only [List.length_cons]; omega, ?_, hd4⟩
      simpa using hd3
    · injection h with h
      rw [Prod.mk.injEq] at h
      obtain ⟨h1, h2⟩ := h
      subst h1
      subst h2
      have hb := escMatchLen_bounds m (c :: rest) len he
      exact ⟨0, by omega, by simp, by simpa using he, by omega⟩

/-- `find_at` for an argument regex: the match is in range, nonempty, and
the matcher fires at its start. -/
theorem findEsc_spec (m : EscMatcher) (input : List Char) (pos ms me : Nat)
    (h : findEsc m input pos = some (ms, me)) :
    pos ≤ ms ∧ ms < input.length ∧ me ≤ input.length ∧ ms < me
      ∧ escMatchLen m (input.drop ms) = some (me - ms) := by
  unfold findEsc at h
  obtain ⟨d, hd1, hd2, hd3, hd4⟩ := findEscAux_spec m (input.drop pos) pos ms me h
  have hlen : (input.drop pos).length = input.length - pos := List.length_drop ..
  rw [List.drop_drop] at hd3
  subst hd1
  have hb := escMatchLen_bounds m (input.drop (pos + d)) (me - (pos + d)) hd3
  have hlen2 : (input.drop (pos + d)).length = input.length - (pos + d) :=
    List.length_drop ..
  exact ⟨by omega, by omega, by omega, hd4, hd3⟩

/-- The head of a dropped suffix is the element at the drop index. -/
theorem head?_drop_eq (input : List Char) (n : Nat) : (input.drop n).head? = input[n]? := by
  rw [List.head?_eq_getElem?, List.getElem?_drop]
  simp

/-- Invariants of one escaped-argument collection loop: the cursor moves
forward and stays in range; success via the closing matcher ends right
after a `)`; failure ends at end-of-input (missing separator) or, under
`strict`, right after the offending escape. -/
theorem collectArg_spec (strict : Bool) (m : EscMatcher) (input missing : List Char) :
    ∀ (fuel pos : Nat) (buf : List Char) (res : Except (List Char) (List Char)) (pos' : Nat),
      pos ≤ input.length → input.length - pos < fuel →
      collectArg strict m input missing fuel pos buf = (res, pos') →
      pos ≤ pos' ∧ pos' ≤ input.length
      ∧ (m = .escOrClosing → ∀ arg, res = .ok arg → endsAfterClosing input pos')
      ∧ (∀ e, res = .error e → pos' = input.length
          ∨ (strict = true ∧ endsAfterEscape input pos')) := by
  intro fuel
  induction fuel with
  | zero => intro pos buf res pos' hp hf _; omega
  | succ fuel ih =>
    intro pos buf res pos' hp hf h
    rw [collectArg] at h
    rcases hfind : findEsc m input pos with _ | ⟨ms, me⟩ <;> rw [hfind] at h <;>
      dsimp only at h
    · rw [Prod.mk.injEq] at h
      obtain ⟨h1, h2⟩ := h
      subst h1
      subst h2
      refine ⟨hp, Nat.le_refl _, fun _ arg harg => ?_, fun e _ => Or.inl rfl⟩
      exact absurd harg (by simp)
    · obtain ⟨hs1, hs2, hs3, hs4, hs5⟩ := findEsc_spec m input pos ms me hfind
      by_cases hbs : input[ms]? = some '\\'
      · rw [if_neg (by simpa using hbs)] at h
        have hlen2 : me - ms = 2 := by
          have hh : (input.drop ms).head? = some '\\' := by rw [head?_drop_eq]; exact hbs
          have := escMatchLen_backslash m (input.drop ms) (me - ms) hs5 hh
          omega
        split at h
        · rename_i hcond
          rw [Prod.mk.injEq] at h
          obtain ⟨h1, h2⟩ := h
          subst h1
          subst h2
          refine ⟨by omega, hs3, fun _ arg harg => absurd harg (by simp),
            fun e _ => Or.inr ⟨?_, ms, by omega, hbs⟩⟩
          simp only [Bool.and_eq_true] at hcond
          exact hcond.1.1
        · obtain ⟨k1, k2, k3, k4⟩ := ih me _ res pos' hs3 (by omega) h
          exact ⟨by omega, k2, k3, k4⟩
      · rw [if_pos (by simpa using hbs)] at h
        rw [Prod.mk.injEq] at h
        obtain ⟨h1, h2⟩ := h
        subst h1
        subst h2
        refine ⟨by omega, hs3, fun hm arg _ => ?_, fun e he => absurd he (by simp)⟩
        subst hm
        have hh : (input.drop ms).head? ≠ some '\\' := by rw [head?_drop_eq]; exact hbs
        obtain ⟨hl1, hl2⟩ := escMatchLen_closing (input.drop ms) (me - ms) hs5 hh
        rw [head?_drop_eq] at hl2
        exact ⟨ms, by omega, hl2⟩

/-- Invariants of the escaped-call argument loop. -/
theorem escapedArgsLoop_spec (strict : Bool) (input : List Char) (count : Nat) :
    ∀ (k pos : Nat) (acc : List (List Char))
      (res : Except (List Char) (List (List Char))) (pos' : Nat),
      pos ≤ input.length →
      escapedArgsLoop strict input count pos k acc = (res, pos') →
      pos ≤ pos' ∧ pos' ≤ input.length
      ∧ (∀ args, res = .ok args → endsAfterClosing input pos')
      ∧ (∀ e, res = .error e → pos' = input.length
          ∨ (strict = true ∧ endsAfterEscape input pos')) := by
  intro k
  induction k with
  | zero =>
    intro pos acc res pos' hp h
    rw [escapedArgsLoop] at h
    rcases hc : collectArg strict .escOrClosing input
        "Cannot find closing \")\" after last parameter".toList (input.length + 1) pos []
      with ⟨cres, cpos⟩
    rw [hc] at h
    obtain ⟨k1, k2, k3, k4⟩ := collectArg_spec strict .escOrClosing input
      ("Cannot find closing \")\" after last parameter".toList) (input.length + 1) pos []
      cres cpos hp (by omega) hc
    rcases cres with e | arg <;> dsimp only at h <;> rw [Prod.mk.injEq] at h <;>
      obtain ⟨h1, h2⟩ := h <;> subst h1 <;> subst h2
    · exact ⟨k1, k2, fun args harg => absurd harg (by simp), fun e' he' => k4 e rfl⟩
    · exact ⟨k1, k2, fun args _ => k3 rfl arg rfl, fun e' he' => absurd he' (by simp)⟩
  | succ n ih =>
    intro pos acc res pos' hp h
    rw [escapedArgsLoop] at h
    rcases hc : collectArg strict .escOrComma input
        ("Cannot find comma separating parameter ".toList ++ natRepr (count - (n + 1))
          ++ " from the next one".toList) (input.length + 1) pos []
      with ⟨cres, cpos⟩
    rw [hc] at h
    obtain ⟨k1, k2, k3, k4⟩ := collectArg_spec strict .escOrComma input
      ("Cannot find comma separating parameter ".toList ++ natRepr (count - (n + 1))
        ++ " from the next one".toList) (input.length + 1) pos []
      cres cpos hp (by omega) hc
    rcases cres with e | arg <;> dsimp only at h
    · rw [Prod.mk.injEq] at h
      obtain ⟨h1, h2⟩ := h
      subst h1
      subst h2
      exact ⟨k1, k2, fun args harg => absurd harg (by simp), fun e' he' => k4 e rfl⟩
    · obtain ⟨j1, j2, j3, j4⟩ := ih cpos (acc ++ [arg]) res pos' k2 h
      exact ⟨by omega, j2, j3, j4⟩

/-- Invariants of `parse_escaped_call`. -/
theorem parse_escaped_call_spec (strict : Bool) (input : List Char) (pos count : Nat)
    (res : Except (List Char) (List (List Char))) (pos' : Nat)
    (hp : pos ≤ input.length)
    (h : parse_escaped_call strict input pos count = (res, pos')) :
    pos ≤ pos' ∧ pos' ≤ input.length
    ∧ (1 ≤ count → ∀ args, res = .ok args → endsAfterClosing input pos')
    ∧ (∀ e, res = .error e → pos' = input.length
        ∨ (strict = true ∧ endsAfterEscape input pos')) := by
  rcases count with _ | n
  · rw [parse_escaped_call] at h
    rw [Prod.mk.injEq] at h
    obtain ⟨h1, h2⟩ := h
    subst h1
    subst h2
    exact ⟨Nat.le_refl _, hp, fun hc => by omega, fun e he => absurd he (by simp)⟩
  · rw [parse_escaped_call] at h
    obtain ⟨k1, k2, k3, k4⟩ := escapedArgsLoop_spec strict input (n + 1) n pos [] res pos' hp h
    exact ⟨k1, k2, fun _ => k3, k4⟩

/-- What a found index means. -/
theorem idxOf_spec (c : Char) : ∀ (l : List Char) (i : Nat), idxOf c l = some i →
    i < l.length ∧ l[i]? = some c := by
  intro l
  induction l with
  | nil => intro i h; exact absurd h (by simp [idxOf])
  | cons d rest ih =>
    intro i h
    rw [idxOf] at h
    by_cases hd : d = c
    · rw [if_pos hd] at h
      injection h with h
      subst h
      subst hd
      simp
    · rw [if_neg hd] at h
      rcases ho : idxOf c rest with _ | j <;> rw [ho] at h
      · simp at h
      · simp only [Option.map_some'] at h
        injection h with h
        subst h
        obtain ⟨ih1, ih2⟩ := ih j ho
        exact ⟨by simp only [List.length_cons]; omega, by simpa using ih2⟩

/-- `find_at` for a single-character pattern. -/
theorem findChar_spec (c : Char) (input : List Char) (pos idx : Nat)
    (h : findChar c input pos = some idx) :
    pos ≤ idx ∧ idx < input.length ∧ input[idx]? = some c := by
  unfold findChar at h
  rcases ho : idxOf c (input.drop pos) with _ | j <;> rw [ho] at h
  · simp at h
  · simp only [Option.map_some'] at h
    injection h with h
    subst h
    obtain ⟨h1, h2⟩ := idxOf_spec c (input.drop pos) j ho
    rw [List.getElem?_drop] at h2
    have hlen : (input.drop pos).length = input.length - pos := List.length_drop ..
    exact ⟨by omega, by omega, by simpa [Nat.add_comm] using h2⟩

/-- Invariants of the unescaped-call argument loop. -/
theorem unescapedArgsLoop_spec (input : List Char) (count : Nat) :
    ∀ (k pos : Nat) (first : Bool) (acc : List (List Char))
      (res : Except (List Char) (List (List Char))) (pos' : Nat),
      pos ≤ input.length →
      unescapedArgsLoop input count pos k first acc = (res, pos') →
      pos ≤ pos' ∧ pos' ≤ input.length
      ∧ (∀ args, res = .ok args → endsAfterClosing input pos')
      ∧ (∀ e, res = .error e → pos' = input.length) := by
  intro k
  induction k with
  | zero =>
    intro pos first acc res pos' hp h
    rw [unescapedArgsLoop] at h
    rcases hf : findChar ')' input pos with _ | idx <;> rw [hf] at h <;> dsimp only at h
    · rw [Prod.mk.injEq] at h
      obtain ⟨h1, h2⟩ := h
      subst h1
      subst h2
      exact ⟨hp, Nat.le_refl _, fun args harg => absurd harg (by simp), fun e _ => rfl⟩
    · obtain ⟨j1, j2, j3⟩ := findChar_spec ')' input pos idx hf
      rcases hst : strip input pos idx (!first) false with ⟨s, e⟩
      rw [hst] at h
      dsimp only at h
      rw [Prod.mk.injEq] at h
      obtain ⟨h1, h2⟩ := h
      subst h1
      subst h2
      exact ⟨by omega, by omega, fun args _ => ⟨idx, rfl, j3⟩,
        fun e' he' => absurd he' (by simp)⟩
  | succ n ih =>
    intro pos first acc res pos' hp h
    rw [unescapedArgsLoop] at h
    rcases hf : findChar ',' input pos with _ | idx <;> rw [hf] at h <;> dsimp only at h
    · rw [Prod.mk.injEq] at h
      obtain ⟨h1, h2⟩ := h
      subst h1
      subst h2
      exact ⟨hp, Nat.le_refl _, fun args harg => absurd harg (by simp), fun e _ => rfl⟩
    · obtain ⟨j1, j2, j3⟩ := findChar_spec ',' input pos idx hf
      rcases hst : strip input pos idx (!first) true with ⟨s, e⟩
      rw [hst] at h
      dsimp only at h
      obtain ⟨k1, k2, k3, k4⟩ := ih (idx + 1) false (acc ++ [slice input s e]) res pos'
        (by omega) h
      exact ⟨by omega, k2, k3, k4⟩

/-- Invariants of `parse_unescaped_call`. -/
theorem parse_unescaped_call_spec (input : List Char) (pos count : Nat)
    (res : Except (List Char) (List (List Char))) (pos' : Nat)
    (hp : pos ≤ input.length)
    (h : parse_unescaped_call input pos count = (res, pos')) :
    pos ≤ pos' ∧ pos' ≤ input.length
    ∧ (1 ≤ count → ∀ args, res = .ok args → endsAfterClosing input pos')
    ∧ (∀ e, res = .error e → pos' = input.length) := by
  rcases count with _ | n
  · rw [parse_unescaped_call] at h
    rw [Prod.mk.injEq] at h
    obtain ⟨h1, h2⟩ := h
    subst h1
    subst h2
    exact ⟨Nat.le_refl _, hp, fun hc => by omega, fun e he => absurd he (by simp)⟩
  · rw [parse_unescaped_call] at h
    obtain ⟨k1, k2, k3, k4⟩ := unescapedArgsLoop_spec input (n + 1) n pos true [] res pos' hp h
    exact ⟨k1, k2, fun _ => k3, k4⟩

/-- What a found command means: position reached and recognizer fired. -/
theorem findCommandAux_spec (cmds : List Command) (input : List Char) :
    ∀ (l : List Char) (i ms : Nat) (c : Command),
      findCommandAux cmds input l i = some (ms, c) →
      i ≤ ms ∧ cmdAt cmds input ms = some c := by
  intro l
  induction l with
  | nil => intro i ms c h; exact absurd h (by simp [findCommandAux])
  | cons x rest ih =>
    intro i ms c h
    rw [findCommandAux] at h
    rcases hc : cmdAt cmds input i with _ | c0 <;> rw [hc] at h
    · obtain ⟨h1, h2⟩ := ih (i + 1) ms c h
      exact ⟨by omega, h2⟩
    · injection h with h
      rw [Prod.mk.injEq] at h
      obtain ⟨h1, h2⟩ := h
      subst h1
      subst h2
      exact ⟨Nat.le_refl _, hc⟩

theorem findCommand_spec (cmds : List Command) (input : List Char) (pos ms : Nat)
    (c : Command) (h : findCommand cmds input pos = some (ms, c)) :
    pos ≤ ms ∧ c ∈ cmds ∧ cmdMatchesAt input ms c = true := by
  obtain ⟨h1, h2⟩ := findCommandAux_spec cmds input (input.drop pos) pos ms c h
  unfold cmdAt at h2
  exact ⟨h1, List.mem_of_find?_eq_some h2, List.find?_some h2⟩

/-- A nonempty command literal matching at `i` fits inside the input. -/
theorem cmdMatchesAt_le (input : List Char) (i : Nat) (c : Command)
    (hpos : 1 ≤ c.cmdMatch.length) (h : cmdMatchesAt input i c = true) :
    i < input.length ∧ i + c.cmdMatch.length ≤ input.length := by
  unfold cmdMatchesAt at h
  simp only [Bool.and_eq_true] at h
  have hlen := (List.isPrefixOf_iff_prefix.mp h.1.1).length_le
  rw [List.length_drop] at hlen
  omega

/-- Invariants of one recognized command run: the produced token spans
`[ms, pos')`, the cursor lands in range past the literal, and the token is
well-formed. -/
theorem runCommand_spec (cfg : PCfg) (input : List Char) (cmd : Command) (ms me : Nat)
    (tok : Token) (pos' : Nat)
    (hmem : cmd ∈ cfg.cmds) (hlen : me ≤ input.length)
    (h : runCommand cfg input cmd ms me = (tok, pos')) :
    tok.tokStart = ms ∧ tok.tokEnd = pos' ∧ me ≤ pos' ∧ pos' ≤ input.length
      ∧ tokenWF cfg input tok := by
  unfold runCommand at h
  by_cases hesc : cmd.escapedArguments
  · rw [if_pos hesc] at h
    rcases hp : parse_escaped_call cfg.strict input me cmd.parameters with ⟨pres, ppos⟩
    rw [hp] at h
    obtain ⟨k1, k2, k3, k4⟩ :=
      parse_escaped_call_spec cfg.strict input me cmd.parameters pres ppos hlen hp
    rcases pres with e | params <;> dsimp only at h <;> rw [Prod.mk.injEq] at h <;>
      obtain ⟨h1, h2⟩ := h <;> subst h1 <;> subst h2
    · refine ⟨rfl, rfl, k1, k2, ?_⟩
      rcases k4 e rfl with hl | ⟨hstrict, hafter⟩
      · exact Or.inl hl
      · exact Or.inr (Or.inr ⟨hstrict, hafter⟩)
    · exact ⟨rfl, rfl, k1, k2, hmem, hesc, fun hc => k3 hc params rfl⟩
  · rw [if_neg hesc] at h
    rcases hp : parse_unescaped_call input me cmd.parameters with ⟨pres, ppos⟩
    rw [hp] at h
    obtain ⟨k1, k2, k3, k4⟩ :=
      parse_unescaped_call_spec input me cmd.parameters pres ppos hlen hp
    rcases pres with e | params <;> dsimp only at h <;> rw [Prod.mk.injEq] at h <;>
      obtain ⟨h1, h2⟩ := h <;> subst h1 <;> subst h2
    · exact ⟨rfl, rfl, k1, k2, Or.inl (k4 e rfl)⟩
    · exact ⟨rfl, rfl, k1, k2, hmem, by simpa using hesc, fun hc => k3 hc params rfl⟩

/-- Tokens produced by the tokenizer tile the rest of the input and are
well-formed, for any sufficient fuel. -/
theorem tokenizeFrom_spec (cfg : PCfg) (input : List Char)
    (hcm : ∀ c ∈ cfg.cmds, 1 ≤ c.cmdMatch.length) :
    ∀ (fuel pos : Nat), pos ≤ input.length → input.length - pos < fuel →
      spansOk input pos (tokenizeFrom cfg input fuel pos)
      ∧ ∀ t ∈ tokenizeFrom cfg input fuel pos, tokenWF cfg input t := by
  intro fuel
  induction fuel with
  | zero => intro pos hp hf; omega
  | succ fuel ih =>
    intro pos hp hf
    rw [tokenizeFrom]
    by_cases hend : input.length ≤ pos
    · rw [if_pos hend]
      exact ⟨show pos = input.length by omega, by simp⟩
    · rw [if_neg hend]
      rcases hfc : findCommand cfg.cmds input pos with _ | ⟨ms, cmd⟩ <;> dsimp only
      · refine ⟨⟨rfl, ?_, ?_, rfl⟩, ?_⟩
        · show pos ≤ input.length
          omega
        · show input.length ≤ input.length
          exact Nat.le_refl _
        · intro t ht
          simp only [List.mem_singleton] at ht
          subst ht
          trivial
      · obtain ⟨hf1, hf2, hf3⟩ := findCommand_spec cfg.cmds input pos ms cmd hfc
        have hm1 : 1 ≤ cmd.cmdMatch.length := hcm cmd hf2
        obtain ⟨hlt, hle⟩ := cmdMatchesAt_le input ms cmd hm1 hf3
        rcases hrc : runCommand cfg input cmd ms (ms + cmd.cmdMatch.length) with ⟨tok, pos'⟩
        dsimp only
        obtain ⟨r1, r2, r3, r4, r5⟩ :=
          runCommand_spec cfg input cmd ms (ms + cmd.cmdMatch.length) tok pos' hf2 hle hrc
        obtain ⟨ihs, ihw⟩ := ih pos' r4 (by omega)
        by_cases hpm : pos < ms
        · rw [if_pos hpm]
          rw [List.singleton_append]
          refine ⟨⟨rfl, ?_, ?_, r1, ?_, ?_, ?_⟩, ?_⟩
          · show pos ≤ ms
            omega
          · show ms ≤ input.length
            omega
          · show ms ≤ tok.tokEnd
            rw [r2]
            omega
          · rw [r2]
            exact r4
          · show spansOk input tok.tokEnd (tok :: _).tail
            rw [r2]
            exact ihs
          · intro t ht
            rcases List.mem_cons.mp ht with rfl | ht2
            · trivial
            · rcases List.mem_cons.mp ht2 with rfl | ht3
              · exact r5
              · exact ihw t ht3
        · rw [if_neg hpm]
          rw [List.nil_append]
          have hpe : pos = ms := by omega
          refine ⟨⟨?_, ?_, ?_, ?_⟩, ?_⟩
          · rw [r1]
            omega
          · rw [r2]
            omega
          · rw [r2]
            exact r4
          · rw [r2]
            exact ihs
          · intro t ht
            rcases List.mem_cons.mp ht with rfl | ht2
            · exact r5
            · exact ihw t ht2

/-- A slice followed by the rest of the input is the suffix at the slice's
start. -/
theorem slice_append_drop (input : List Char) (pos e : Nat) (h : pos ≤ e) :
    slice input pos e ++ input.drop e = input.drop pos := by
  unfold slice
  have hdd : input.drop e = (input.drop pos).drop (e - pos) := by
    rw [List.drop_drop]
    congr 1
    omega
  rw [hdd, List.take_append_drop]

/-- Concatenating the source slices of a tiling token list reproduces the
suffix of the input at its start. -/
theorem spansOk_flatten (input : List Char) :
    ∀ (toks : List Token) (pos : Nat), spansOk input pos toks →
      ((toks.map fun t => slice input t.tokStart t.tokEnd).flatten) = input.drop pos := by
  intro toks
  induction toks with
  | nil =>
    intro pos h
    have hp : pos = input.length := h
    simp [hp, List.drop_length]
  | cons t rest ih =>
    intro pos h
    obtain ⟨h1, h2, h3, h4⟩ := h
    simp only [List.map_cons, List.flatten_cons]
    rw [ih _ h4, h1]
    exact slice_append_drop input pos t.tokEnd (h1 ▸ h2)

/-- A slice is a contiguous (infix) part of the input. -/
theorem slice_isInfix (input : List Char) (s e : Nat) :
    List.IsInfix (slice input s e) input := by
  unfold slice
  exact List.IsInfix.trans (List.take_prefix _ _).isInfix (List.drop_suffix _ _).isInfix

/-- Every configured command set is drawn from the full table. -/
theorem mem_cfg_all (opts : ParseOptions) (c : Command) (h : c ∈ (mkCfg opts).cmds) :
    c ∈ ALL_COMMANDS := by
  unfold mkCfg at h
  dsimp only at h
  split at h
  · exact List.mem_of_mem_filter h
  · exact h

/-- Every configured command literal is nonempty. -/
theorem cfg_cmds_nonempty_match (opts : ParseOptions) :
    ∀ c ∈ (mkCfg opts).cmds, 1 ≤ c.cmdMatch.length := fun c hc =>
  (by decide : ∀ c ∈ ALL_COMMANDS, 1 ≤ c.cmdMatch.length) c (mem_cfg_all opts c hc)

/-- C9 witness: the literal examples of the claim,
`O(ns.col.r#role:name)` and `O(ns.col.r#role:ep:name)`. -/
theorem C9_role_entrypoint_witness :
    parse_option_like "ns.col.r#role:name".toList ⟨none, none⟩ =
      .error "Role reference is missing entrypoint".toList
    ∧ parse_option_like "ns.col.r#role:ep:name".toList ⟨none, none⟩ =
      .ok (mkOptionLike (some ⟨"ns.col.r".toList, "role".toList⟩) (some "ep".toList)
        "name".toList none) :=
  C9_role_entrypoint "name".toList (by decide) (by decide) (by decide) (by decide)

/-- C6: for every input, context and parse options, each part returned by
`parse` carries a source that is a contiguous slice of the original input,
and concatenating the sources in order reproduces the entire input. -/
theorem C6_source_preservation (input : List Char) (ctx : Context) (opts : ParseOptions) :
    ((parseWithSource input ctx opts).map fun p => p.source).flatten = input
    ∧ ∀ p ∈ parseWithSource input ctx opts, List.IsInfix p.source input := by
  obtain ⟨hs, _⟩ := tokenizeFrom_spec (mkCfg opts) input (cfg_cmds_nonempty_match opts)
    (input.length + 1) 0 (by omega) (by omega)
  constructor
  · show (((tokenize (mkCfg opts) input).map _).map _).flatten = input
    rw [List.map_map]
    have hfl := spansOk_flatten input (tokenize (mkCfg opts) input) 0 hs
    simpa [Function.comp] using hfl
  · intro p hp
    simp only [parseWithSource, List.mem_map] at hp
    obtain ⟨t, _, rfl⟩ := hp
    exact slice_isInfix input t.tokStart t.tokEnd

/-- C6 witness: source preservation at the spec's own scenario
`"Hello B(world)!"`, with the infix property at the Bold part. -/
theorem C6_source_preservation_witness :
    (((parseWithSource "Hello B(world)!".toList ⟨none, none⟩ ParseOptions.default).map
        fun p => p.source).flatten = "Hello B(world)!".toList)
    ∧ List.IsInfix "B(world)".toList "Hello B(world)!".toList :=
  ⟨(C6_source_preservation "Hello B(world)!".toList ⟨none, none⟩ ParseOptions.default).1,
   (C6_source_preservation "Hello B(world)!".toList ⟨none, none⟩ ParseOptions.default).2
     { part := Part.bold "world".toList, source := "B(world)".toList } (by decide)⟩

/-- C2 amended: the token stream tiles the input (so parsing always resumes
exactly where the failed command's token ends), and every token that
becomes an inline Error part ends at end-of-input (missing separator), or
immediately after the consumed closing `)` (all conversion errors, and
collector successes generally), or — under `strict` only — immediately
after the offending two-character backslash escape. -/
theorem C2_error_recovery (input : List Char) (ctx : Context) (opts : ParseOptions) :
    spansOk input 0 (tokenize (mkCfg opts) input)
    ∧ ∀ t ∈ tokenize (mkCfg opts) input,
        isErrorPart (to_part (mkCfg opts) ctx input t) = true →
        t.tokEnd = input.length ∨ endsAfterClosing input t.tokEnd
          ∨ (opts.strict = true ∧ endsAfterEscape input t.tokEnd) := by
  obtain ⟨hs, hw⟩ := tokenizeFrom_spec (mkCfg opts) input (cfg_cmds_nonempty_match opts)
    (input.length + 1) 0 (by omega) (by omega)
  refine ⟨hs, fun t ht herr => ?_⟩
  have hwf := hw t ht
  rcases t with ⟨s, e⟩ | ⟨cmd, params, s, e⟩ | ⟨cmd, params, s, e⟩ | ⟨msg, s, e⟩
  · simp [to_part, isErrorPart] at herr
  · obtain ⟨hmem, huesc, hclos⟩ := hwf
    have hall : cmd ∈ ALL_COMMANDS := mem_cfg_all opts cmd hmem
    simp only [ALL_COMMANDS, List.mem_cons, List.not_mem_nil, or_false] at hall
    rcases hall with rfl | rfl | rfl | rfl | rfl | rfl | rfl | rfl | rfl | rfl | rfl | rfl | rfl
    · exact Or.inr (Or.inl (hclos (by decide)))
    · exact Or.inr (Or.inl (hclos (by decide)))
    · exact Or.inr (Or.inl (hclos (by decide)))
    · exact Or.inr (Or.inl (hclos (by decide)))
    · exact Or.inr (Or.inl (hclos (by decide)))
    · exact Or.inr (Or.inl (hclos (by decide)))
    · exact Or.inr (Or.inl (hclos (by decide)))
    · simp [to_part, HORIZONTAL_LINE, Command.newClassic, isErrorPart] at herr
    · simp [PLUGIN, Command.newModern] at huesc
    · simp [ENVVAR, Command.newModern] at huesc
    · simp [OPTION_VALUE, Command.newModern] at huesc
    · simp [OPTION_NAME, Command.newModern] at huesc
    · simp [RETURN_VALUE, Command.newModern] at huesc
  · obtain ⟨hmem, hesc, hclos⟩ := hwf
    have hall : cmd ∈ ALL_COMMANDS := mem_cfg_all opts cmd hmem
    simp only [ALL_COMMANDS, List.mem_cons, List.not_mem_nil, or_false] at hall
    rcases hall with rfl | rfl | rfl | rfl | rfl | rfl | rfl | rfl | rfl | rfl | rfl | rfl | rfl
    · simp [ITALICS, Command.newClassic] at hesc
    · simp [BOLD, Command.newClassic] at hesc
    · simp [Command.newClassic, MODULE] at hesc
    · simp [URLCMD, Command.newClassic] at hesc
    · simp [LINK, Command.newClassic] at hesc
    · simp [RSTREF, Command.newClassic] at hesc
    · simp [CODE, Command.newClassic] at hesc
    · simp [HORIZONTAL_LINE, Command.newClassic] at hesc
    · exact Or.inr (Or.inl (hclos (by decide)))
    · exact Or.inr (Or.inl (hclos (by decide)))
    · exact Or.inr (Or.inl (hclos (by decide)))
    · exact Or.inr (Or.inl (hclos (by decide)))
    · exact Or.inr (Or.inl (hclos (by decide)))
  · exact hwf

/-- C2 witness: parsing `"M(x)"` (a FQCN validation failure) produces a
command token whose end, by the theorem, sits right after the closing `)`
or at end-of-input. -/
theorem C2_error_recovery_witness :
    Token.tokEnd (.uCmd MODULE [['x']] 0 4) = "M(x)".toList.length
    ∨ endsAfterClosing "M(x)".toList (Token.tokEnd (.uCmd MODULE [['x']] 0 4))
    ∨ (ParseOptions.default.strict = true
        ∧ endsAfterEscape "M(x)".toList (Token.tokEnd (.uCmd MODULE [['x']] 0 4))) :=
  (C2_error_recovery "M(x)".toList ⟨none, none⟩ ParseOptions.default).2
    (.uCmd MODULE [['x']] 0 4) (by decide) (by decide)

end Antsibull
